import Mathlib

/-!
Verification of the binsync chunk-based differential sync engine.

The development embeds the core of the repository (the planner
`Syncer::plan` and executor `Syncer::sync_from_plan` in
`src/chunk/sync.rs`, the pack builder `RemoteManifest::with_pack_size`
and remote provider in `src/chunk/network.rs`, the providers in
`src/chunk/provider.rs`, and the manifest builder in
`src/chunk/manifest.rs`) as executable Lean functions.

Modelling conventions:
* file bytes are `List Nat`; relative paths are abstracted as `Nat`;
* the 64-bit MD5-prefix chunk id is an abstract parameter
  `H : List Nat → Nat` (the no-collision assumption of the spec becomes
  injectivity of `H`); pack ids are likewise abstracted;
* the FastCDC chunker is an abstract parameter
  `chunker : List Nat → List CdcEntry`; where a claim needs the cover
  invariant of content-defined chunking it is an explicit hypothesis;
* a Rust `HashMap` that is only built by repeated `insert` and then
  queried by `get` is modelled as an insertion-ordered association list
  with last-wins lookup (`lastLookup`), which has exactly the
  overwrite-on-insert semantics of the source;
* fallible Rust code is modelled in `Except Error`; a `panic!`/`unwrap`
  of the old-generation provider code is modelled as `Option` with
  `none` for the panic.
-/

namespace Binsync

/-- A destination or source file system: relative path to file bytes. -/
def Fs : Type := Nat → Option (List Nat)

/-- Point update of a file system, as performed by writing a file. -/
def fsUpdate (fs : Fs) (p : Nat) (b : List Nat) : Fs :=
  fun q => if q = p then some b else fs q

/-- The contiguous byte range `[off, off+len)` of a buffer, as produced by
seek-then-read in the source. -/
def sliceL (l : List Nat) (off len : Nat) : List Nat :=
  (l.drop off).take len

/-- The first `n` bytes of a file, zero-filled past the end: the content of
positions `[0, n)` of a sparse file after seeks/extension. -/
def padTake (file : List Nat) (n : Nat) : List Nat :=
  file.take n ++ List.replicate (n - file.length) 0

/-- Overwrite bytes of `file` starting at position `p` with `data`,
extending (zero-filling any gap) as an OS file write does. -/
def writeAt (file : List Nat) (p : Nat) (data : List Nat) : List Nat :=
  padTake file p ++ data ++ file.drop (p + data.length)

/-- An injective stand-in for the 64-bit MD5-prefix chunk id, used to
instantiate the abstract hash in concrete witnesses: the spec's
no-collision assumption holds for it by construction. -/
def encodeList : List Nat → Nat
  | [] => 0
  | a :: l => Nat.pair a (encodeList l) + 1

/-- A chunk record of the data model: content id plus the byte range it
describes (struct `Chunk` of `chunk/mod.rs`).
Modelled from the spec: the current-generation `chunk/mod.rs` defining
`Chunk { hash: u64, offset: u64, length: u64 }` is absent from `src/`
(only its users `sync.rs`, `manifest.rs`, `network.rs` are present);
the structure follows spec section 3. -/
structure Chunk where
  hash : Nat
  offset : Nat
  length : Nat
deriving DecidableEq, Repr

/-- A raw record produced by the chunker: byte range only
(`fastcdc::Chunk` has fields `offset`, `length`). -/
structure CdcEntry where
  offset : Nat
  length : Nat
deriving DecidableEq, Repr

/-- A plan operation (enum `Operation` of `chunk/mod.rs`).
Modelled from the spec: the defining module is absent from `src/`;
spec section 3 gives `Seek(delta: i64) | Copy(chunk) | Fetch(chunk)`. -/
inductive Operation where
  | seek : Int → Operation
  | copy : Chunk → Operation
  | fetch : Chunk → Operation
deriving DecidableEq, Repr

/-- Per-file chunk list of a manifest (struct `FileChunkInfo` of
`chunk/manifest.rs`), with the path abstracted to `Nat`. -/
structure FileChunkInfo where
  path : Nat
  chunks : List Chunk
deriving DecidableEq, Repr

/-- A manifest (struct `Manifest` of `chunk/manifest.rs`). -/
structure Manifest where
  files : List FileChunkInfo
deriving DecidableEq, Repr

/-- The sync plan (struct `SyncPlan` of `chunk/mod.rs`).
Modelled from the spec: the defining module is absent from `src/`;
spec section 3 gives an ordered sequence of per-path operation lists
plus a `total_ops` count. -/
structure SyncPlan where
  operations : List (Nat × List Operation)
  total_ops : Nat
deriving DecidableEq, Repr

/-- The error enumeration of `src/error.rs`, extended by the wrapped
I/O error of the spec's taxonomy (section 7) which `?` conversions in
`sync.rs` require. -/
inductive Error where
  | default : Error
  | fileNotFound : Nat → Error
  | directoryNotFound : Nat → Error
  | chunkNotFound : Nat → Error
  | accessDenied : Error
  | unspecified : Error
  | ioError : Error
deriving DecidableEq, Repr

/-- Last-wins lookup in an insertion-ordered association list: the value
of the final `insert` for a key, i.e. `HashMap::get` after the map was
built by repeated `HashMap::insert`. -/
def lastLookup {α : Type} (m : List (Nat × α)) (k : Nat) : Option α :=
  ((m.filter (fun pr => pr.1 == k)).getLast?).map Prod.snd

/-- The `have_chunks` map built by `Syncer::plan` (sync.rs lines 72-80):
chunk the destination bytes and record each entry under the MD5-prefix
id of its slice; kept as the insertion-ordered list of inserts. -/
def haveChunks (H : List Nat → Nat) (chunker : List Nat → List CdcEntry)
    (contents : List Nat) : List (Nat × CdcEntry) :=
  (chunker contents).map (fun e => (H (sliceL contents e.offset e.length), e))

/-- The `have_chunks` map for a manifest path: empty when the destination
file does not exist (sync.rs line 58 `path.exists()`). -/
def haveOf (H : List Nat → Nat) (chunker : List Nat → List CdcEntry)
    (fs : Fs) (p : Nat) : List (Nat × CdcEntry) :=
  match fs p with
  | some contents => haveChunks H chunker contents
  | none => []

/-- The per-chunk case analysis of `Syncer::plan` (sync.rs lines 83-110):
`Seek` when the recorded destination entry for the hash sits at the
identical range, `Copy` with the destination record's range when the hash
is recorded elsewhere, `Fetch` otherwise. -/
def planOps (haveM : List (Nat × CdcEntry)) (chunks : List Chunk) :
    List Operation :=
  chunks.map (fun c =>
    match lastLookup haveM c.hash with
    | some e =>
      if e.offset = c.offset ∧ e.length = c.length then
        Operation.seek (Int.ofNat e.length)
      else
        Operation.copy ⟨c.hash, e.offset, e.length⟩
    | none => Operation.fetch ⟨c.hash, c.offset, c.length⟩)

/-- Whether an operation is a `Copy` or `Fetch` (the `matches!` test of
sync.rs lines 113-115). -/
def opIsCopyOrFetch : Operation → Bool
  | Operation.copy _ => true
  | Operation.fetch _ => true
  | Operation.seek _ => false

/-- One file of the planning loop (sync.rs lines 51-122): build the
operations, bump the running chunk counter, and either skip the file
(all-`Seek`) or append it and overwrite `total_ops` with the counter. -/
def planStep (H : List Nat → Nat) (chunker : List Nat → List CdcEntry)
    (fs : Fs) (acc : SyncPlan × Nat) (fci : FileChunkInfo) : SyncPlan × Nat :=
  let ops := planOps (haveOf H chunker fs fci.path) fci.chunks
  let total := acc.2 + fci.chunks.length
  if ops.any opIsCopyOrFetch then
    (⟨acc.1.operations ++ [(fci.path, ops)], total⟩, total)
  else
    (acc.1, total)

/-- `Syncer::plan` (sync.rs lines 41-125). -/
def plan (H : List Nat → Nat) (chunker : List Nat → List CdcEntry)
    (fs : Fs) (m : Manifest) : SyncPlan :=
  (m.files.foldl (planStep H chunker fs) (⟨[], 0⟩, 0)).1

/-- The copy pre-load pass of `Syncer::sync_from_plan` (sync.rs lines
157-167): for each `Copy` seek to the recorded offset and `read_exact`
its length from the destination file, storing the bytes under the hash. -/
def preloadStep (orig : List Nat) (m : List (Nat × List Nat)) (op : Operation) :
    Except Error (List (Nat × List Nat)) :=
  match op with
  | Operation.copy c =>
    if c.offset + c.length ≤ orig.length then
      Except.ok (m ++ [(c.hash, sliceL orig c.offset c.length)])
    else
      Except.error Error.ioError
  | _ => Except.ok m

/-- The pre-load pass as a fold of `preloadStep` over the operations. -/
def preloadCopies (orig : List Nat) (ops : List Operation) :
    Except Error (List (Nat × List Nat)) :=
  ops.foldlM (preloadStep orig) []

/-- Executor state while streaming one file: current bytes and the
write cursor of the buffered writer. -/
structure ExecSt where
  file : List Nat
  pos : Int
deriving DecidableEq, Repr

/-- One operation of the write pass (sync.rs lines 176-194): `Seek`
advances the cursor, `Copy` writes the pre-loaded buffer for the hash,
`Fetch` writes whatever bytes the provider returns. -/
def execOp (provider : Nat → Except Error (List Nat))
    (haveM : List (Nat × List Nat)) (st : ExecSt) (op : Operation) :
    Except Error ExecSt :=
  match op with
  | Operation.seek len =>
    let p := st.pos + len
    if p < 0 then Except.error Error.accessDenied
    else Except.ok ⟨st.file, p⟩
  | Operation.copy c =>
    match lastLookup haveM c.hash with
    | none => Except.error (Error.chunkNotFound c.hash)
    | some data =>
      Except.ok ⟨writeAt st.file st.pos.toNat data, st.pos + data.length⟩
  | Operation.fetch c =>
    match provider c.hash with
    | Except.error e => Except.error e
    | Except.ok data =>
      Except.ok ⟨writeAt st.file st.pos.toNat data, st.pos + data.length⟩

/-- Execution of one planned file by `Syncer::sync_from_plan` (sync.rs
lines 140-210): pre-load the copies, stream the operations from
position 0, then `set_len` the file to the final cursor position. -/
def syncFile (provider : Nat → Except Error (List Nat))
    (orig : List Nat) (ops : List Operation) : Except Error (List Nat) :=
  match preloadCopies orig ops with
  | Except.error e => Except.error e
  | Except.ok haveM =>
    match ops.foldlM (execOp provider haveM) ⟨orig, 0⟩ with
    | Except.error e => Except.error e
    | Except.ok st => Except.ok (padTake st.file st.pos.toNat)

/-- One planned file of `Syncer::sync_from_plan`: open the destination
read+write+create (a missing file starts from empty bytes), execute the
file's operations and record the rewritten bytes. -/
def syncFileStep (provider : Nat → Except Error (List Nat))
    (f : Fs) (pr : Nat × List Operation) : Except Error Fs :=
  (syncFile provider ((f pr.1).getD []) pr.2).map (fsUpdate f pr.1)

/-- `Syncer::sync_from_plan` (sync.rs lines 135-213): process the planned
files in order. -/
def sync_from_plan (provider : Nat → Except Error (List Nat))
    (fs : Fs) (pl : SyncPlan) : Except Error Fs :=
  pl.operations.foldlM (syncFileStep provider) fs

/-! ### Pack builder (`RemoteManifest::with_pack_size`, network.rs 47-96) -/

/-- A pack of chunk ids (struct `Pack` of network.rs). -/
structure Pack where
  hash : Nat
  length : Nat
  chunks : List Nat
deriving DecidableEq, Repr

/-- Accumulator of the greedy pack loop: packs emitted so far plus the
current pack's running `length` and chunk-id list (the source keeps the
id list twice, once as `bytes` for hashing and once as `chunks`; both
are determined by this single list, and the MD5-prefix of the
little-endian id bytes is abstracted as `packHash` applied to the ids). -/
structure PackState where
  packs : List Pack
  length : Nat
  ids : List Nat
deriving Repr

/-- One chunk of the greedy loop (network.rs 55-78): flush the current
pack when the chunk does not fit, then append the chunk. -/
def packStep (packHash : List Nat → Nat) (size : Nat)
    (st : PackState) (c : Chunk) : PackState :=
  let st' :=
    if size < st.length + c.length then
      ⟨st.packs ++ [⟨packHash st.ids, st.length, st.ids⟩], 0, []⟩
    else st
  ⟨st'.packs, st'.length + c.length, st'.ids ++ [c.hash]⟩

/-- The chunk stream of a manifest, in its iteration order (files in
order, chunks within each file in order). -/
def allChunks (m : Manifest) : List Chunk :=
  (m.files.map FileChunkInfo.chunks).flatten

/-- `RemoteManifest::with_pack_size` (network.rs 47-96): greedy
bin-packing of the manifest's chunk stream, emitting a trailing partial
pack when its accumulated length is positive. -/
def with_pack_size (packHash : List Nat → Nat) (size : Nat)
    (m : Manifest) : List Pack :=
  let st := (allChunks m).foldl (packStep packHash size) ⟨[], 0, []⟩
  if 0 < st.length then st.packs ++ [⟨packHash st.ids, st.length, st.ids⟩]
  else st.packs

/-! ### Remote provider (`RemoteChunkProvider::get_chunk`, network.rs 408-425) -/

/-- Location of a chunk inside a pack (struct `ChunkPackInfo`). -/
structure ChunkPackInfo where
  pack_id : Nat
  pack_length : Nat
  offset : Nat
  length : Nat
deriving DecidableEq, Repr

/-- `RemoteChunkProvider::get_chunk` (network.rs 408-425): look the id up
in the chunk map, block for the pack bytes, validate that the recorded
range lies inside them (`Unspecified` otherwise) and slice. The blocking
pack download is abstracted as the total function `packData`. -/
def RemoteChunkProvider.get_chunk (chunk_map : List (Nat × ChunkPackInfo))
    (packData : Nat → List Nat) (key : Nat) : Except Error (List Nat) :=
  match lastLookup chunk_map key with
  | none => Except.error (Error.chunkNotFound key)
  | some info =>
    let data := packData info.pack_id
    if data.length < info.offset + info.length then Except.error Error.unspecified
    else Except.ok (sliceL data info.offset info.length)

/-! ### Basic provider (`BasicChunkProvider::get_chunk`, provider.rs 66-80) -/

/-- What the basic provider records per chunk id (struct `ProviderChunk`
of provider.rs, with the file path abstracted to `Nat`). -/
structure ProviderChunk where
  file : Nat
  offset : Nat
  length : Nat
deriving DecidableEq, Repr

/-- `BasicChunkProvider::get_chunk` (provider.rs 66-80). Its return type
is plain `Vec<u8>`: a missing key returns an empty buffer, and the file
open/seek/read of a present key is `unwrap`ed; we model that panic as
`none`, so `some bytes` is the function returning normally. -/
def BasicChunkProvider.get_chunk (chunks : List (Nat × ProviderChunk))
    (readFs : Nat → Option (List Nat)) (key : Nat) : Option (List Nat) :=
  match lastLookup chunks key with
  | none => some []
  | some info =>
    match readFs info.file with
    | none => none
    | some bytes =>
      if info.offset + info.length ≤ bytes.length then
        some (sliceL bytes info.offset info.length)
      else none

/-! ### Manifest builder (`Manifest::from_file_list`, manifest.rs 66-111) -/

/-- A work item of the manifest builder (struct `FileInfo`), with both
path components abstracted to `Nat`. -/
structure FileInfo where
  name : Nat
  directory : Nat
deriving DecidableEq, Repr

/-- The chunk list a manifest worker computes for one buffer
(manifest.rs 79-98): chunk, hash each slice, record `(hash, offset,
length)`. -/
def chunksOfContents (H : List Nat → Nat)
    (chunker : List Nat → List CdcEntry) (contents : List Nat) : List Chunk :=
  (chunker contents).map
    (fun e => ⟨H (sliceL contents e.offset e.length), e.offset, e.length⟩)

/-- One worker task of `Manifest::from_file_list` (manifest.rs 77-101):
read the file and chunk it; the `unwrap` on a failed read panics the
worker, modelled as the error outcome. -/
def chunkFileTask (H : List Nat → Nat) (chunker : List Nat → List CdcEntry)
    (readFile : Nat → Except Error (List Nat)) (fi : FileInfo) :
    Except Error FileChunkInfo :=
  match readFile fi.directory with
  | Except.error e => Except.error e
  | Except.ok contents => Except.ok ⟨fi.directory, chunksOfContents H chunker contents⟩

/-- Insertion into a path-sorted file list (the comparison behind
`sort_by_cached_key(|k| k.path)`). -/
def insertByPath (f : FileChunkInfo) : List FileChunkInfo → List FileChunkInfo
  | [] => [f]
  | g :: t => if f.path ≤ g.path then f :: g :: t else g :: insertByPath f t

/-- Sort a file list by path (manifest.rs 108). -/
def sortByPath (l : List FileChunkInfo) : List FileChunkInfo :=
  l.foldr insertByPath []

/-- `Manifest::from_file_list` (manifest.rs 66-111).
Modelled from the spec: `crate::sync::ThreadPool` is absent from `src/`;
spec sections 4.3 and 5 describe a bounded pool running one chunking task
per file whose results are collected and sorted, any task failure being
fatal and fail-fast. We model the pool as executing every task and
propagating the first failure; per-task work mirrors the source closure. -/
def from_file_list (H : List Nat → Nat) (chunker : List Nat → List CdcEntry)
    (readFile : Nat → Except Error (List Nat)) (files : List FileInfo) :
    Except Error Manifest :=
  (files.mapM (chunkFileTask H chunker readFile)).map
    (fun fcis => ⟨sortByPath fcis⟩)

/-! ### Pack downloader worker (`PackDownloaderInner::operate`, network.rs 115-172) -/

/-- Control messages of the pack downloader (enum `PackMessage`). -/
inductive PackMessage where
  | preload : Nat → PackMessage
  | download : Nat → PackMessage
  | terminate : PackMessage
deriving DecidableEq, Repr

/-- `PackDownloaderInner::queue_pack` (network.rs 169-171): both message
kinds append the pack id to the back of the work queue. -/
def queuePack (q : List Nat) (id : Nat) : List Nat := q ++ [id]

/-- Draining the channel (the `try_recv` loop of network.rs 128-134):
every pending message is handled before any fetch; `Terminate` makes
`operate` return `false`, modelled as `none`. -/
def drainMessages (q : List Nat) : List PackMessage → Option (List Nat)
  | [] => some q
  | PackMessage.preload id :: rest => drainMessages (queuePack q id) rest
  | PackMessage.download id :: rest => drainMessages (queuePack q id) rest
  | PackMessage.terminate :: _ => none

/-- Outcome of one `operate` call. -/
inductive OperateResult where
  | terminated : OperateResult
  | blocked : OperateResult
  | fetched : Nat → List Nat → OperateResult
deriving DecidableEq, Repr

/-- `PackDownloaderInner::operate` (network.rs 115-172) as a function of
the current work queue and the messages pending on the channel: when the
queue is empty the first message is taken by the blocking `recv` (with no
message the call blocks), then the channel is drained, then the front of
the queue is fetched. `fetched id rest` reports the pack requested from
the network and the queue left behind. -/
def operate (queue : List Nat) (incoming : List PackMessage) : OperateResult :=
  match queue, incoming with
  | [], [] => OperateResult.blocked
  | _, _ =>
    match drainMessages queue incoming with
    | none => OperateResult.terminated
    | some q =>
      match q with
      | [] => OperateResult.blocked
      | id :: rest => OperateResult.fetched id rest

/-! ### State-threaded planner, for the frame property of `Syncer::plan` -/

/-- The `path.exists()` check of sync.rs line 58, threading the file
system state. -/
def fsExists (p : Nat) (st : Fs) : Bool × Fs :=
  ((st p).isSome, st)

/-- The read-only open plus `read_to_end` of sync.rs lines 59-69,
threading the file system state. -/
def fsReadToEnd (p : Nat) (st : Fs) : Except Error (List Nat) × Fs :=
  match st p with
  | some b => (Except.ok b, st)
  | none => (Except.error Error.accessDenied, st)

/-- The body of one planning iteration given the `have_chunks` map;
shared by the pure and the state-threaded embedding of `Syncer::plan`. -/
def planStepOps (fci : FileChunkInfo) (haveM : List (Nat × CdcEntry))
    (acc : SyncPlan × Nat) : SyncPlan × Nat :=
  let ops := planOps haveM fci.chunks
  let total := acc.2 + fci.chunks.length
  if ops.any opIsCopyOrFetch then
    (⟨acc.1.operations ++ [(fci.path, ops)], total⟩, total)
  else
    (acc.1, total)

/-- One file of `Syncer::plan` with the file-system effects explicit:
an existence test, then a read-only open and read for existing files. -/
def planFileStep (H : List Nat → Nat) (chunker : List Nat → List CdcEntry)
    (fci : FileChunkInfo) (acc : SyncPlan × Nat) (st : Fs) :
    Except Error (SyncPlan × Nat) × Fs :=
  let ex := fsExists fci.path st
  if ex.1 then
    match fsReadToEnd fci.path ex.2 with
    | (Except.error e, st') => (Except.error e, st')
    | (Except.ok contents, st') =>
      (Except.ok (planStepOps fci (haveChunks H chunker contents) acc), st')
  else
    (Except.ok (planStepOps fci [] acc), ex.2)

/-- The planning loop over the manifest files, threading the file
system state. -/
def planFilesGo (H : List Nat → Nat) (chunker : List Nat → List CdcEntry) :
    List FileChunkInfo → (SyncPlan × Nat) → Fs →
    Except Error (SyncPlan × Nat) × Fs
  | [], acc, st => (Except.ok acc, st)
  | fci :: rest, acc, st =>
    match planFileStep H chunker fci acc st with
    | (Except.error e, st') => (Except.error e, st')
    | (Except.ok acc', st') => planFilesGo H chunker rest acc' st'

/-- `Syncer::plan` with its file-system accesses threaded as explicit
state: every access the source performs is an existence test or a
read-only open and read. -/
def planWithState (H : List Nat → Nat) (chunker : List Nat → List CdcEntry)
    (m : Manifest) (st : Fs) : Except Error SyncPlan × Fs :=
  match planFilesGo H chunker m.files (⟨[], 0⟩, 0) st with
  | (Except.error e, st') => (Except.error e, st')
  | (Except.ok acc, st') => (Except.ok acc.1, st')

/-! ### Invariant predicates (spec section 3) and concrete instantiations -/

/-- Sum of the recorded chunk lengths. -/
def sumLen (chunks : List Chunk) : Nat :=
  (chunks.map Chunk.length).sum

/-- The chunk records are contiguous starting at offset `o`
(`chunks[i].offset = chunks[i-1].offset + chunks[i-1].length`). -/
def chunksContiguousB : Nat → List Chunk → Bool
  | _, [] => true
  | o, c :: rest => c.offset == o && chunksContiguousB (o + c.length) rest

/-- The manifest invariant for one file (spec section 3): the chunks are
contiguous from offset 0, cover the byte length exactly, and each carries
the id of its slice. -/
def chunksCoverB (H : List Nat → Nat) (src : List Nat)
    (chunks : List Chunk) : Bool :=
  chunksContiguousB 0 chunks && sumLen chunks == src.length &&
    chunks.all (fun c => c.hash == H (sliceL src c.offset c.length))

/-- CDC entries contiguous starting at offset `o`. -/
def entriesContiguousB : Nat → List CdcEntry → Bool
  | _, [] => true
  | o, e :: rest => e.offset == o && entriesContiguousB (o + e.length) rest

/-- The chunker-output invariant (spec section 4.1): the entries tile the
buffer exactly. -/
def entriesCoverB (bytes : List Nat) (entries : List CdcEntry) : Bool :=
  entriesContiguousB 0 entries &&
    (entries.map CdcEntry.length).sum == bytes.length

/-- A degenerate but cover-correct chunker (one chunk per byte), used to
instantiate the abstract chunker in concrete witnesses and
counterexamples. -/
def unitChunker (bytes : List Nat) : List CdcEntry :=
  (List.range bytes.length).map (fun i => ⟨i, 1⟩)

/-- Spec-side description of what the planner's `have` map yields for a
hash: the last chunk produced by chunking the destination contents whose
slice hashes to `h` (spec section 4.6, tie-break rule). -/
def lastEntryWithHash (H : List Nat → Nat) (contents : List Nat)
    (entries : List CdcEntry) (h : Nat) : Option CdcEntry :=
  (entries.filter (fun e => H (sliceL contents e.offset e.length) == h)).getLast?

/-! ### Generic helper lemmas -/

theorem except_bind_ok {ε α β : Type} (a : α) (f : α → Except ε β) :
    (Except.ok a >>= f) = f a := rfl

theorem except_bind_error {ε α β : Type} (e : ε) (f : α → Except ε β) :
    ((Except.error e : Except ε α) >>= f) = Except.error e := rfl

theorem lastLookup_mem {α : Type} {m : List (Nat × α)} {k : Nat} {v : α}
    (h : lastLookup m k = some v) : (k, v) ∈ m := by
  unfold lastLookup at h
  cases hg : (m.filter (fun pr => pr.1 == k)).getLast? with
  | none => rw [hg] at h; simp at h
  | some pr =>
    rw [hg] at h
    simp only [Option.map_some'] at h
    have hmem : pr ∈ m.filter (fun pr => pr.1 == k) :=
      List.mem_of_mem_getLast? hg
    rcases List.mem_filter.mp hmem with ⟨hpm, hpk⟩
    have hk : pr.1 = k := by simpa using hpk
    have : (k, v) = pr := by
      cases pr with
      | mk a b => cases h; cases hk; rfl
    rw [this]
    exact hpm

theorem lastLookup_eq_none {α : Type} {m : List (Nat × α)} {k : Nat} :
    lastLookup m k = none ↔ ∀ pr ∈ m, pr.1 ≠ k := by
  unfold lastLookup
  constructor
  · intro h pr hpr hk
    rcases Option.map_eq_none'.mp h with hg
    have : pr ∈ m.filter (fun pr => pr.1 == k) :=
      List.mem_filter.mpr ⟨hpr, by simpa using hk⟩
    rw [List.getLast?_eq_none_iff.mp hg] at this
    simp at this
  · intro h
    have : m.filter (fun pr => pr.1 == k) = [] :=
      List.filter_eq_nil_iff.mpr (fun pr hpr => by simpa using h pr hpr)
    rw [this]
    rfl

theorem sliceL_length {l : List Nat} {off len : Nat}
    (h : off + len ≤ l.length) : (sliceL l off len).length = len := by
  simp [sliceL]
  omega

theorem padTake_of_le {file : List Nat} {n : Nat} (h : n ≤ file.length) :
    padTake file n = file.take n := by
  simp [padTake, Nat.sub_eq_zero_of_le h]

theorem sumLen_nil : sumLen [] = 0 := rfl

theorem sumLen_cons (c : Chunk) (S : List Chunk) :
    sumLen (c :: S) = c.length + sumLen S := by
  simp [sumLen]

theorem chunksContiguousB_cons {o : Nat} {c : Chunk} {S : List Chunk} :
    chunksContiguousB o (c :: S) = true ↔
      c.offset = o ∧ chunksContiguousB (o + c.length) S = true := by
  simp [chunksContiguousB]

/-- Splitting a drop at a slice boundary. -/
theorem drop_eq_slice_append (l : List Nat) (o n : Nat) :
    l.drop o = sliceL l o n ++ l.drop (o + n) := by
  unfold sliceL
  rw [← List.drop_drop]
  exact (List.take_append_drop n (l.drop o)).symm

/-- If the bytes of `orig` in `[o, o+l)` agree with those of `src`, the
mixed file `src.take o ++ orig.drop o` is unchanged by advancing the
boundary across the agreeing range. -/
theorem shift_invariant {src orig : List Nat} {o l : Nat}
    (heq : sliceL orig o l = sliceL src o l) :
    src.take o ++ orig.drop o = src.take (o + l) ++ orig.drop (o + l) := by
  rw [List.take_add, drop_eq_slice_append orig o l, heq]
  simp [sliceL, List.append_assoc]

/-- Writing the bytes `sliceL src o l` at position `o` of the mixed file
`src.take o ++ orig.drop o` advances the boundary across the written
range. -/
theorem writeAt_shift {src orig data : List Nat} {o l : Nat}
    (hl : o + l ≤ src.length) (hdata : data = sliceL src o l) :
    writeAt (src.take o ++ orig.drop o) o data
      = src.take (o + l) ++ orig.drop (o + l) := by
  have hdl : data.length = l := by rw [hdata]; exact sliceL_length hl
  have hto : (src.take o).length = o := by simp; omega
  unfold writeAt
  have h1 : padTake (src.take o ++ orig.drop o) o = src.take o := by
    rw [padTake_of_le (by simp; omega)]
    exact List.take_left' hto
  have h2 : (src.take o ++ orig.drop o).drop (o + data.length)
      = orig.drop (o + l) := by
    rw [hdl, ← List.drop_drop l o, List.drop_left' hto, List.drop_drop]
  rw [h1, h2, hdata, List.take_add]
  simp [sliceL, List.append_assoc]

/-! ### Small-step characterizations of the planner and executor -/

theorem planOps_nil (haveM : List (Nat × CdcEntry)) : planOps haveM [] = [] := rfl

theorem planOps_cons_seek {haveM : List (Nat × CdcEntry)} {c : Chunk}
    {e : CdcEntry} (S : List Chunk) (hlk : lastLookup haveM c.hash = some e)
    (heq : e.offset = c.offset ∧ e.length = c.length) :
    planOps haveM (c :: S)
      = Operation.seek (Int.ofNat c.length) :: planOps haveM S := by
  simp [planOps, hlk, heq.1, heq.2]

theorem planOps_cons_copy {haveM : List (Nat × CdcEntry)} {c : Chunk}
    {e : CdcEntry} (S : List Chunk) (hlk : lastLookup haveM c.hash = some e)
    (hne : ¬(e.offset = c.offset ∧ e.length = c.length)) :
    planOps haveM (c :: S)
      = Operation.copy ⟨c.hash, e.offset, e.length⟩ :: planOps haveM S := by
  simp only [planOps, List.map_cons, hlk]
  rw [if_neg hne]

theorem planOps_cons_fetch {haveM : List (Nat × CdcEntry)} {c : Chunk}
    (S : List Chunk) (hlk : lastLookup haveM c.hash = none) :
    planOps haveM (c :: S)
      = Operation.fetch ⟨c.hash, c.offset, c.length⟩ :: planOps haveM S := by
  simp [planOps, hlk]

theorem execOp_seek (provider : Nat → Except Error (List Nat))
    (pm : List (Nat × List Nat)) (file : List Nat) (o l : Nat) :
    execOp provider pm ⟨file, Int.ofNat o⟩ (Operation.seek (Int.ofNat l))
      = Except.ok ⟨file, Int.ofNat (o + l)⟩ := by
  simp only [execOp]
  rw [if_neg (by rw [Int.ofNat_eq_coe, Int.ofNat_eq_coe]; omega)]
  rfl

theorem execOp_copy_ok (provider : Nat → Except Error (List Nat))
    (pm : List (Nat × List Nat)) (file : List Nat) (o : Nat) (c : Chunk)
    (data : List Nat) (hpd : lastLookup pm c.hash = some data) :
    execOp provider pm ⟨file, Int.ofNat o⟩ (Operation.copy c)
      = Except.ok ⟨writeAt file o data, Int.ofNat (o + data.length)⟩ := by
  simp only [execOp, hpd]
  rfl

theorem execOp_copy_none (provider : Nat → Except Error (List Nat))
    (pm : List (Nat × List Nat)) (st : ExecSt) (c : Chunk)
    (hpd : lastLookup pm c.hash = none) :
    execOp provider pm st (Operation.copy c)
      = Except.error (Error.chunkNotFound c.hash) := by
  simp [execOp, hpd]

theorem execOp_fetch_ok (provider : Nat → Except Error (List Nat))
    (pm : List (Nat × List Nat)) (file : List Nat) (o : Nat) (c : Chunk)
    (data : List Nat) (hpv : provider c.hash = Except.ok data) :
    execOp provider pm ⟨file, Int.ofNat o⟩ (Operation.fetch c)
      = Except.ok ⟨writeAt file o data, Int.ofNat (o + data.length)⟩ := by
  simp only [execOp, hpv]
  rfl

theorem execOp_fetch_error {e : Error} (provider : Nat → Except Error (List Nat))
    (pm : List (Nat × List Nat)) (st : ExecSt) (c : Chunk)
    (hpv : provider c.hash = Except.error e) :
    execOp provider pm st (Operation.fetch c) = Except.error e := by
  simp [execOp, hpv]

/-! ### The write pass reconstructs the source bytes -/

/-- Core invariant of the executor's write pass: starting with the mixed
file `src.take o ++ orig.drop o` at cursor `o`, executing the planned
operations for the remaining chunks (contiguous from `o`) reproduces the
source bytes up to the final offset, provided every hash lookup is
backed by bytes that hash accordingly and `H` is collision-free. -/
theorem execOps_planOps
    (H : List Nat → Nat) (provider : Nat → Except Error (List Nat))
    (src orig : List Nat) (haveM : List (Nat × CdcEntry))
    (pm : List (Nat × List Nat))
    (Hinj : Function.Injective H)
    (hprov : ∀ h data, provider h = Except.ok data → H data = h)
    (hhave : ∀ pr ∈ haveM, H (sliceL orig pr.2.offset pr.2.length) = pr.1)
    (hpm : ∀ h data, lastLookup pm h = some data → H data = h) :
    ∀ (S : List Chunk) (o : Nat),
      chunksContiguousB o S = true →
      o + sumLen S ≤ src.length →
      (∀ c ∈ S, c.hash = H (sliceL src c.offset c.length)) →
      ∀ res, List.foldlM (execOp provider pm)
          (ExecSt.mk (src.take o ++ orig.drop o) (Int.ofNat o)) (planOps haveM S)
          = Except.ok res →
        res = ExecSt.mk (src.take (o + sumLen S) ++ orig.drop (o + sumLen S))
          (Int.ofNat (o + sumLen S)) := by
  intro S
  induction S with
  | nil =>
    intro o _ _ _ res hok
    rw [planOps_nil, List.foldlM_nil] at hok
    have hpure : (pure (ExecSt.mk (src.take o ++ orig.drop o) (Int.ofNat o)) :
        Except Error ExecSt)
        = Except.ok (ExecSt.mk (src.take o ++ orig.drop o) (Int.ofNat o)) := rfl
    rw [hpure] at hok
    injection hok with h
    rw [← h]
    simp [sumLen]
  | cons c S' ih =>
    intro o hcontig hbound hhash res hok
    rcases chunksContiguousB_cons.mp hcontig with ⟨hoff, hcontig'⟩
    have hbound' : (o + c.length) + sumLen S' ≤ src.length := by
      rw [sumLen_cons] at hbound; omega
    have hcl : o + c.length ≤ src.length := by omega
    have hhashc : c.hash = H (sliceL src o c.length) := by
      rw [← hoff]; exact hhash c (List.mem_cons_self c S')
    have hhash' : ∀ x ∈ S', x.hash = H (sliceL src x.offset x.length) :=
      fun x hx => hhash x (List.mem_cons_of_mem c hx)
    have hsum : o + sumLen (c :: S') = (o + c.length) + sumLen S' := by
      rw [sumLen_cons]; omega
    rw [hsum]
    cases hlk : lastLookup haveM c.hash with
    | some e =>
      have hOrig : H (sliceL orig e.offset e.length) = c.hash :=
        hhave (c.hash, e) (lastLookup_mem hlk)
      by_cases heq : e.offset = c.offset ∧ e.length = c.length
      · -- Seek: the destination already holds the chunk bytes in place
        rw [planOps_cons_seek S' hlk heq, List.foldlM_cons,
          execOp_seek, except_bind_ok] at hok
        have hslice : sliceL orig o c.length = sliceL src o c.length := by
          apply Hinj
          rw [heq.1, heq.2, hoff] at hOrig
          rw [hOrig]
          exact hhashc
        rw [shift_invariant hslice] at hok
        exact ih (o + c.length) hcontig' hbound' hhash' res hok
      · -- Copy: the pre-loaded buffer holds the chunk bytes
        rw [planOps_cons_copy S' hlk heq, List.foldlM_cons] at hok
        cases hpd : lastLookup pm c.hash with
        | none =>
          rw [execOp_copy_none provider pm _ ⟨c.hash, e.offset, e.length⟩ hpd,
            except_bind_error] at hok
          exact absurd hok (by simp)
        | some data =>
          rw [execOp_copy_ok provider pm (src.take o ++ orig.drop o) o
            ⟨c.hash, e.offset, e.length⟩ data hpd, except_bind_ok] at hok
          have hdata : data = sliceL src o c.length := by
            apply Hinj
            rw [hpm c.hash data hpd, hhashc]
          have hdl : data.length = c.length := by
            rw [hdata]; exact sliceL_length hcl
          rw [writeAt_shift hcl hdata, hdl] at hok
          exact ih (o + c.length) hcontig' hbound' hhash' res hok
    | none =>
      -- Fetch: the provider's bytes hash to the chunk id
      rw [planOps_cons_fetch S' hlk, List.foldlM_cons] at hok
      cases hpv : provider c.hash with
      | error e =>
        rw [execOp_fetch_error provider pm _ ⟨c.hash, c.offset, c.length⟩ hpv,
            except_bind_error] at hok
        exact absurd hok (by simp)
      | ok data =>
        rw [execOp_fetch_ok provider pm (src.take o ++ orig.drop o) o
            ⟨c.hash, c.offset, c.length⟩ data hpv, except_bind_ok] at hok
        have hdata : data = sliceL src o c.length := by
          apply Hinj
          rw [hprov c.hash data hpv, hhashc]
        have hdl : data.length = c.length := by
          rw [hdata]; exact sliceL_length hcl
        rw [writeAt_shift hcl hdata, hdl] at hok
        exact ih (o + c.length) hcontig' hbound' hhash' res hok

/-! ### Soundness of the pre-load pass -/

theorem haveChunks_sound (H : List Nat → Nat)
    (chunker : List Nat → List CdcEntry) (contents : List Nat) :
    ∀ pr ∈ haveChunks H chunker contents,
      H (sliceL contents pr.2.offset pr.2.length) = pr.1 := by
  intro pr hpr
  rcases List.mem_map.mp hpr with ⟨e, _, heq⟩
  rw [← heq]

theorem planOps_copy_sound (H : List Nat → Nat) (orig : List Nat)
    (haveM : List (Nat × CdcEntry))
    (hhave : ∀ pr ∈ haveM, H (sliceL orig pr.2.offset pr.2.length) = pr.1) :
    ∀ (S : List Chunk) (c : Chunk), Operation.copy c ∈ planOps haveM S →
      H (sliceL orig c.offset c.length) = c.hash := by
  intro S
  induction S with
  | nil => intro c hc; simp [planOps] at hc
  | cons c0 S' ih =>
    intro c hc
    cases hlk : lastLookup haveM c0.hash with
    | some e =>
      by_cases heq : e.offset = c0.offset ∧ e.length = c0.length
      · rw [planOps_cons_seek S' hlk heq] at hc
        rcases List.mem_cons.mp hc with h | h
        · exact absurd h (by simp)
        · exact ih c h
      · rw [planOps_cons_copy S' hlk heq] at hc
        rcases List.mem_cons.mp hc with h | h
        · have hch : c = ⟨c0.hash, e.offset, e.length⟩ := by
            injection h
          rw [hch]
          exact hhave (c0.hash, e) (lastLookup_mem hlk)
        · exact ih c h
    | none =>
      rw [planOps_cons_fetch S' hlk] at hc
      rcases List.mem_cons.mp hc with h | h
      · exact absurd h (by simp)
      · exact ih c h

theorem preload_fold_sound (H : List Nat → Nat) (orig : List Nat) :
    ∀ (ops : List Operation) (init pm : List (Nat × List Nat)),
      (∀ c, Operation.copy c ∈ ops → H (sliceL orig c.offset c.length) = c.hash) →
      (∀ pr ∈ init, H pr.2 = pr.1) →
      List.foldlM (preloadStep orig) init ops = Except.ok pm →
      ∀ pr ∈ pm, H pr.2 = pr.1 := by
  intro ops
  induction ops with
  | nil =>
    intro init pm _ hinit hok
    rw [List.foldlM_nil] at hok
    have : init = pm := by
      have h : (pure init : Except Error (List (Nat × List Nat)))
          = Except.ok init := rfl
      rw [h] at hok
      injection hok
    rw [← this]
    exact hinit
  | cons op ops' ih =>
    intro init pm hops hinit hok
    rw [List.foldlM_cons] at hok
    match op with
    | Operation.seek l =>
      rw [show preloadStep orig init (Operation.seek l) = Except.ok init from rfl,
        except_bind_ok] at hok
      exact ih init pm (fun c hc => hops c (List.mem_cons_of_mem _ hc)) hinit hok
    | Operation.fetch c =>
      rw [show preloadStep orig init (Operation.fetch c) = Except.ok init from rfl,
        except_bind_ok] at hok
      exact ih init pm (fun c hc => hops c (List.mem_cons_of_mem _ hc)) hinit hok
    | Operation.copy c =>
      by_cases hb : c.offset + c.length ≤ orig.length
      · rw [show preloadStep orig init (Operation.copy c)
            = Except.ok (init ++ [(c.hash, sliceL orig c.offset c.length)]) by
            simp [preloadStep, hb], except_bind_ok] at hok
        refine ih _ pm (fun x hx => hops x (List.mem_cons_of_mem _ hx)) ?_ hok
        intro pr hpr
        rcases List.mem_append.mp hpr with h | h
        · exact hinit pr h
        · have : pr = (c.hash, sliceL orig c.offset c.length) := by simpa using h
          rw [this]
          exact hops c (List.mem_cons_self _ _)
      · rw [show preloadStep orig init (Operation.copy c) = Except.error Error.ioError by
            simp [preloadStep, hb], except_bind_error] at hok
        exact absurd hok (by simp)

theorem chunksCoverB_iff {H : List Nat → Nat} {src : List Nat} {S : List Chunk} :
    chunksCoverB H src S = true ↔
      chunksContiguousB 0 S = true ∧ sumLen S = src.length ∧
        ∀ c ∈ S, c.hash = H (sliceL src c.offset c.length) := by
  simp [chunksCoverB, Bool.and_eq_true, List.all_eq_true, and_assoc]

/-! ### Per-file correctness of the executor -/

/-- Executing the planned operations of a file whose manifest chunks
cover `src` rewrites the destination bytes `orig` into exactly `src`,
whenever it completes without error: the `have_chunks` backing and the
provider must return bytes that hash to the looked-up ids and `H` must
be collision-free. -/
theorem syncFile_planOps_src
    (H : List Nat → Nat) (provider : Nat → Except Error (List Nat))
    (src orig : List Nat) (haveM : List (Nat × CdcEntry))
    (Hinj : Function.Injective H)
    (hprov : ∀ h data, provider h = Except.ok data → H data = h)
    (hhave : ∀ pr ∈ haveM, H (sliceL orig pr.2.offset pr.2.length) = pr.1)
    (S : List Chunk) (hcov : chunksCoverB H src S = true) :
    ∀ out, syncFile provider orig (planOps haveM S) = Except.ok out →
      out = src := by
  intro out hok
  rcases chunksCoverB_iff.mp hcov with ⟨hcontig, hsum, hhash⟩
  unfold syncFile at hok
  cases hpl : preloadCopies orig (planOps haveM S) with
  | error e => rw [hpl] at hok; exact absurd hok (by simp)
  | ok pm =>
    rw [hpl] at hok
    dsimp only at hok
    have hpm : ∀ h data, lastLookup pm h = some data → H data = h := by
      intro h data hld
      exact preload_fold_sound H orig (planOps haveM S) [] pm
        (planOps_copy_sound H orig haveM hhave S) (by simp) hpl
        (h, data) (lastLookup_mem hld)
    cases hfold : List.foldlM (execOp provider pm)
        (ExecSt.mk orig 0) (planOps haveM S) with
    | error e => rw [hfold] at hok; exact absurd hok (by simp)
    | ok st =>
      rw [hfold] at hok
      have hfold' : List.foldlM (execOp provider pm)
          (ExecSt.mk (src.take 0 ++ orig.drop 0) (Int.ofNat 0))
          (planOps haveM S) = Except.ok st := hfold
      have hres := execOps_planOps H provider src orig haveM pm Hinj hprov
        hhave hpm S 0 hcontig (by omega) hhash st hfold'
      rw [hres] at hok
      have hL : (0 : Nat) + sumLen S = src.length := by omega
      rw [hL] at hok
      dsimp only at hok
      have hfile : padTake (src.take src.length ++ orig.drop src.length)
          ((Int.ofNat src.length).toNat) = src := by
        rw [show (Int.ofNat src.length).toNat = src.length from rfl]
        rw [padTake_of_le (by simp)]
        rw [List.take_left' (by simp)]
        exact List.take_length src
      rw [hfile] at hok
      injection hok with h
      rw [← h]

/-! ### Structure of the plan and of the executor's file loop -/

/-- Every entry of the plan comes from a manifest file, carries its path,
and holds exactly the operations the per-chunk case analysis produces
for it (and it was not skipped: it contains a `Copy` or `Fetch`). -/
theorem plan_foldl_mem (H : List Nat → Nat) (ck : List Nat → List CdcEntry)
    (fs : Fs) :
    ∀ (files : List FileChunkInfo) (acc : SyncPlan × Nat) (p : Nat)
      (ops : List Operation),
      (p, ops) ∈ ((files.foldl (planStep H ck fs) acc).1).operations →
      (p, ops) ∈ acc.1.operations ∨
        ∃ fci ∈ files, p = fci.path ∧
          ops = planOps (haveOf H ck fs fci.path) fci.chunks ∧
          ops.any opIsCopyOrFetch = true := by
  intro files
  induction files with
  | nil => intro acc p ops h; exact Or.inl h
  | cons fci rest ih =>
    intro acc p ops h
    rw [List.foldl_cons] at h
    rcases ih (planStep H ck fs acc fci) p ops h with h' | ⟨g, hg, hp, ho, ha⟩
    · by_cases hany : (planOps (haveOf H ck fs fci.path) fci.chunks).any
          opIsCopyOrFetch = true
      · rw [planStep] at h'
        simp only [hany, if_true] at h'
        rcases List.mem_append.mp h' with h2 | h2
        · exact Or.inl h2
        · right
          have heq := List.mem_singleton.mp h2
          have hp : p = fci.path := congrArg Prod.fst heq
          have ho : ops = planOps (haveOf H ck fs fci.path) fci.chunks :=
            congrArg Prod.snd heq
          exact ⟨fci, List.mem_cons_self _ _, hp, ho, by rw [ho]; exact hany⟩
      · rw [planStep] at h'
        simp only [hany, if_false] at h'
        rw [if_neg (by simp)] at h'
        exact Or.inl h'
    · exact Or.inr ⟨g, List.mem_cons_of_mem _ hg, hp, ho, ha⟩

/-- The paths of the plan form a sublist of the manifest's file paths. -/
theorem plan_paths_sublist (H : List Nat → Nat)
    (ck : List Nat → List CdcEntry) (fs : Fs) :
    ∀ (files : List FileChunkInfo) (acc : SyncPlan × Nat),
      (((files.foldl (planStep H ck fs) acc).1).operations.map Prod.fst).Sublist
        ((acc.1.operations.map Prod.fst) ++ files.map FileChunkInfo.path) := by
  intro files
  induction files with
  | nil => intro acc; simp
  | cons fci rest ih =>
    intro acc
    rw [List.foldl_cons]
    have h := ih (planStep H ck fs acc fci)
    by_cases hany : (planOps (haveOf H ck fs fci.path) fci.chunks).any
        opIsCopyOrFetch = true
    · have hstep : (planStep H ck fs acc fci).1.operations
          = acc.1.operations ++ [(fci.path,
            planOps (haveOf H ck fs fci.path) fci.chunks)] := by
        rw [planStep]
        simp [hany]
      rw [hstep] at h
      simpa using h
    · have hstep : (planStep H ck fs acc fci).1 = acc.1 := by
        rw [planStep]
        simp [hany]
      rw [hstep] at h
      refine h.trans (List.Sublist.append_left ?_ _)
      simp [List.sublist_cons_self]

/-- Executing the file loop leaves paths outside the plan untouched. -/
theorem sync_fold_frame (provider : Nat → Except Error (List Nat)) :
    ∀ (E : List (Nat × List Operation)) (fs0 fs1 : Fs),
      List.foldlM (syncFileStep provider) fs0 E = Except.ok fs1 →
      ∀ q, q ∉ E.map Prod.fst → fs1 q = fs0 q := by
  intro E
  induction E with
  | nil =>
    intro fs0 fs1 hok q _
    rw [List.foldlM_nil] at hok
    have : (pure fs0 : Except Error Fs) = Except.ok fs0 := rfl
    rw [this] at hok
    injection hok with h
    rw [h]
  | cons pr rest ih =>
    intro fs0 fs1 hok q hq
    rw [List.foldlM_cons] at hok
    cases hstep : syncFileStep provider fs0 pr with
    | error e => rw [hstep, except_bind_error] at hok; exact absurd hok (by simp)
    | ok f1 =>
      rw [hstep, except_bind_ok] at hok
      have hq1 : q ∉ rest.map Prod.fst := by
        intro hc; exact hq (by simp [hc])
      have hqp : q ≠ pr.1 := by
        intro hc; exact hq (by simp [hc])
      rw [ih f1 fs1 hok q hq1]
      unfold syncFileStep at hstep
      cases hsf : syncFile provider ((fs0 pr.1).getD []) pr.2 with
      | error e =>
        rw [hsf] at hstep
        exact absurd hstep (by simp [Except.map])
      | ok out =>
        rw [hsf] at hstep
        have hstep' : Except.ok (fsUpdate fs0 pr.1 out) = Except.ok f1 := hstep
        injection hstep' with h
        rw [← h]
        simp [fsUpdate, hqp]

/-- For a plan whose paths are distinct, the final state at a planned
path is the result of executing that file against the initial state. -/
theorem sync_fold_result (provider : Nat → Except Error (List Nat)) :
    ∀ (E : List (Nat × List Operation)) (fs0 fs1 : Fs) (p : Nat)
      (ops : List Operation),
      (E.map Prod.fst).Nodup →
      (p, ops) ∈ E →
      List.foldlM (syncFileStep provider) fs0 E = Except.ok fs1 →
      ∃ out, syncFile provider ((fs0 p).getD []) ops = Except.ok out ∧
        fs1 p = some out := by
  intro E
  induction E with
  | nil => intro fs0 fs1 p ops _ hm _; simp at hm
  | cons pr rest ih =>
    intro fs0 fs1 p ops hnd hm hok
    rw [List.foldlM_cons] at hok
    cases hstep : syncFileStep provider fs0 pr with
    | error e => rw [hstep, except_bind_error] at hok; exact absurd hok (by simp)
    | ok f1 =>
      rw [hstep, except_bind_ok] at hok
      have hdec : ∃ out0, syncFile provider ((fs0 pr.1).getD []) pr.2
          = Except.ok out0 ∧ f1 = fsUpdate fs0 pr.1 out0 := by
        unfold syncFileStep at hstep
        cases hsf : syncFile provider ((fs0 pr.1).getD []) pr.2 with
        | error e => rw [hsf] at hstep; exact absurd hstep (by simp [Except.map])
        | ok out0 =>
          rw [hsf] at hstep
          have hstep' : Except.ok (fsUpdate fs0 pr.1 out0) = Except.ok f1 := hstep
          injection hstep' with h
          exact ⟨out0, rfl, h.symm⟩
      rcases hdec with ⟨out0, hsf, hf1⟩
      have hnd' : (rest.map Prod.fst).Nodup := (List.nodup_cons.mp hnd).2
      have hhd : pr.1 ∉ rest.map Prod.fst := (List.nodup_cons.mp hnd).1
      rcases List.mem_cons.mp hm with hm1 | hm1
      · have hp : p = pr.1 := congrArg Prod.fst hm1
        have hops : ops = pr.2 := congrArg Prod.snd hm1
        refine ⟨out0, ?_, ?_⟩
        · rw [hp, hops]; exact hsf
        · rw [sync_fold_frame provider rest f1 fs1 hok p (by rw [hp]; exact hhd)]
          rw [hf1, hp]
          simp [fsUpdate]
      · have hpne : p ≠ pr.1 := by
          intro hc
          apply hhd
          rw [← hc]
          exact List.mem_map.mpr ⟨(p, ops), hm1, rfl⟩
        rcases ih f1 fs1 p ops hnd' hm1 hok with ⟨out, hsf2, hval⟩
        refine ⟨out, ?_, hval⟩
        have hfp : f1 p = fs0 p := by rw [hf1]; simp [fsUpdate, hpne]
        rw [← hfp]
        exact hsf2

/-- When the destination file is chunked exactly like the manifest's
chunk records (the already-synced situation), every chunk's hash is
present in the `have` map and the planner emits no `Fetch`. -/
theorem planOps_self_no_fetch (H : List Nat → Nat)
    (ck : List Nat → List CdcEntry) (src : List Nat) (S : List Chunk)
    (hck : ck src = S.map (fun c => CdcEntry.mk c.offset c.length))
    (hhash : ∀ c ∈ S, c.hash = H (sliceL src c.offset c.length)) :
    ∀ c : Chunk, Operation.fetch c ∉ planOps (haveChunks H ck src) S := by
  intro c hc
  rcases List.mem_map.mp hc with ⟨c0, hc0, hf⟩
  cases hlk : lastLookup (haveChunks H ck src) c0.hash with
  | some e =>
    simp only [hlk] at hf
    by_cases heq : e.offset = c0.offset ∧ e.length = c0.length
    · rw [if_pos heq] at hf
      exact Operation.noConfusion hf
    · rw [if_neg heq] at hf
      exact Operation.noConfusion hf
  | none =>
    have hmem : (H (sliceL src c0.offset c0.length),
        CdcEntry.mk c0.offset c0.length) ∈ haveChunks H ck src := by
      unfold haveChunks
      rw [hck, List.map_map]
      exact List.mem_map.mpr ⟨c0, hc0, rfl⟩
    exact lastLookup_eq_none.mp hlk _ hmem (hhash c0 hc0).symm

/-! ### The state-threaded planner agrees with the pure one -/

theorem planFilesGo_pure (H : List Nat → Nat)
    (ck : List Nat → List CdcEntry) :
    ∀ (files : List FileChunkInfo) (acc : SyncPlan × Nat) (st : Fs),
      planFilesGo H ck files acc st
        = (Except.ok (files.foldl (planStep H ck st) acc), st) := by
  intro files
  induction files with
  | nil => intro acc st; rfl
  | cons fci rest ih =>
    intro acc st
    have hstep : planFileStep H ck fci acc st
        = (Except.ok (planStep H ck st acc fci), st) := by
      cases hst : st fci.path with
      | some b =>
        simp [planFileStep, fsExists, fsReadToEnd, hst, planStep, planStepOps,
          haveOf]
      | none =>
        simp [planFileStep, fsExists, fsReadToEnd, hst, planStep, planStepOps,
          haveOf]
    simp only [planFilesGo, hstep, List.foldl_cons]
    exact ih (planStep H ck st acc fci) st

/-- Claim C10: `Syncer::plan` has no effect on the destination tree: its
filesystem accesses are an existence test and a read-only open and read
per existing file, so the state after planning is the state before, and
the plan computed through the state-threaded embedding is exactly the
pure plan. -/
theorem c10_plan_reads_only (H : List Nat → Nat)
    (ck : List Nat → List CdcEntry) (m : Manifest) (st : Fs) :
    (planWithState H ck m st).2 = st ∧
      (planWithState H ck m st).1 = Except.ok (plan H ck st m) := by
  unfold planWithState plan
  rw [planFilesGo_pure]
  exact ⟨rfl, rfl⟩

/-- Claim C9 (code bug): with pack 1 already queued by a `Preload` and a
`Download` for pack 2 pending on the channel, the worker drains the
message but appends pack 2 to the back of the FIFO queue, so the next
network fetch is pack 1 — the `Download` does not preempt the queued
`Preload`. -/
theorem c9_download_not_prioritized :
    operate [1] [PackMessage.download 2] = OperateResult.fetched 1 [2] ∧
      OperateResult.fetched 1 [2] ≠ OperateResult.fetched 2 [1] := by
  exact ⟨rfl, by decide⟩

/-- Claim C3 (code bug): in a manifest whose first file is fully in sync
(all-Seek, skipped) and whose second file is missing at the destination,
the returned plan holds a single operation for the second file, yet
`total_ops` is 2: the running counter also counted the skipped file's
chunk before being written into the plan. -/
theorem c3_total_ops_counts_skipped_files :
    (plan encodeList unitChunker
        (fun p => if p = 0 then some [7] else none)
        ⟨[⟨0, [⟨encodeList [7], 0, 1⟩]⟩, ⟨1, [⟨encodeList [8], 0, 1⟩]⟩]⟩).total_ops
        = 2 ∧
      ((plan encodeList unitChunker
        (fun p => if p = 0 then some [7] else none)
        ⟨[⟨0, [⟨encodeList [7], 0, 1⟩]⟩, ⟨1, [⟨encodeList [8], 0, 1⟩]⟩]⟩).operations.map
          (fun pr => pr.2.length)).sum = 1 := by
  decide

/-- Claim C6 counterexample: a provider that returns three bytes for a
chunk whose recorded length is 2 does not make `sync_from_plan` fail
with `Unspecified`; the executor writes the mismatched bytes and the
sync succeeds. -/
theorem c6_counterexample :
    Except.map (fun f => f 0)
      (sync_from_plan
        (fun h => if h = 42 then Except.ok [9, 9, 9]
          else Except.error (Error.chunkNotFound h))
        (fun _ => none)
        ⟨[(0, [Operation.fetch ⟨42, 0, 2⟩])], 1⟩)
      = Except.ok (some [9, 9, 9]) := by
  rfl

/-- Claim C6 (amended): the length validation producing `Unspecified`
lives in `RemoteChunkProvider::get_chunk`, not in the executor: when a
chunk's recorded range extends past the downloaded pack's bytes, the
provider fails with `Unspecified` and the executor's `Fetch` step
propagates that failure instead of writing. -/
theorem c6_remote_length_validation
    (cm : List (Nat × ChunkPackInfo)) (pd : Nat → List Nat)
    (hm : List (Nat × List Nat)) (st : ExecSt) (c : Chunk)
    (info : ChunkPackInfo) (hlk : lastLookup cm c.hash = some info)
    (hshort : (pd info.pack_id).length < info.offset + info.length) :
    RemoteChunkProvider.get_chunk cm pd c.hash = Except.error Error.unspecified ∧
      execOp (RemoteChunkProvider.get_chunk cm pd) hm st (Operation.fetch c)
        = Except.error Error.unspecified := by
  have hp : RemoteChunkProvider.get_chunk cm pd c.hash
      = Except.error Error.unspecified := by
    simp [RemoteChunkProvider.get_chunk, hlk, hshort]
  exact ⟨hp, execOp_fetch_error (RemoteChunkProvider.get_chunk cm pd) hm st c hp⟩

/-- Claim C6 witness: a concrete one-chunk map whose recorded range
(offset 0, length 2) exceeds the one-byte pack body. -/
theorem c6_witness :
    lastLookup [(42, ChunkPackInfo.mk 5 1 0 2)] (Chunk.mk 42 0 2).hash
        = some (ChunkPackInfo.mk 5 1 0 2) ∧
      execOp (RemoteChunkProvider.get_chunk [(42, ChunkPackInfo.mk 5 1 0 2)]
          (fun _ => [9]))
        [] (ExecSt.mk [] 0) (Operation.fetch (Chunk.mk 42 0 2))
        = Except.error Error.unspecified := by
  refine ⟨by decide, ?_⟩
  exact (c6_remote_length_validation [(42, ChunkPackInfo.mk 5 1 0 2)]
    (fun _ => [9]) [] (ExecSt.mk [] 0) (Chunk.mk 42 0 2)
    (ChunkPackInfo.mk 5 1 0 2) (by decide) (by decide)).2

/-- Claim C7 counterexample: with an empty index, the basic provider of
provider.rs answers an absent chunk id with an empty byte buffer — a
normal return of bytes, not a failure. -/
theorem c7_counterexample :
    BasicChunkProvider.get_chunk [] (fun _ => none) 42 = some [] := by
  decide

/-- Claim C7 (amended): for a chunk id absent from the provider's index,
`RemoteChunkProvider::get_chunk` fails with `ChunkNotFound`, but
`BasicChunkProvider::get_chunk` returns an empty byte buffer instead of
failing. -/
theorem c7_absent_id_behavior
    (cm : List (Nat × ChunkPackInfo)) (pd : Nat → List Nat)
    (chunks : List (Nat × ProviderChunk)) (rf : Nat → Option (List Nat))
    (key : Nat) (habsent : lastLookup cm key = none)
    (habsent' : lastLookup chunks key = none) :
    RemoteChunkProvider.get_chunk cm pd key
        = Except.error (Error.chunkNotFound key) ∧
      BasicChunkProvider.get_chunk chunks rf key = some [] := by
  constructor
  · simp [RemoteChunkProvider.get_chunk, habsent]
  · simp [BasicChunkProvider.get_chunk, habsent']

/-- Claim C7 witness: the amended behavior at a concrete empty index. -/
theorem c7_witness :
    RemoteChunkProvider.get_chunk [] (fun _ => []) 42
        = Except.error (Error.chunkNotFound 42) ∧
      BasicChunkProvider.get_chunk [] (fun _ => none) 42 = some [] :=
  c7_absent_id_behavior [] (fun _ => []) [] (fun _ => none) 42
    (by decide) (by decide)

/-! ### Pack builder invariants -/

/-- Invariant of the greedy packing fold: the running pack length is the
sum of the recorded lengths of the accumulated ids and stays within the
limit, every emitted pack satisfies the sum and limit invariants, and
hash multiplicities are conserved: ids in packs plus accumulated ids
equal the processed chunk stream. -/
theorem pack_fold_inv (packHash : List Nat → Nat) (size : Nat)
    (lenOf : Nat → Nat) :
    ∀ (L : List Chunk) (st : PackState) (processed : List Nat),
      (∀ c ∈ L, 0 < c.length ∧ c.length ≤ size ∧ lenOf c.hash = c.length) →
      st.length = (st.ids.map lenOf).sum →
      st.length ≤ size →
      (∀ h ∈ st.ids, 0 < lenOf h) →
      (∀ p ∈ st.packs, p.length = (p.chunks.map lenOf).sum ∧ p.length ≤ size) →
      (∀ h : Nat, (((st.packs.map Pack.chunks).flatten ++ st.ids).count h
        = processed.count h)) →
      ((L.foldl (packStep packHash size) st).length
          = (((L.foldl (packStep packHash size) st).ids.map lenOf)).sum) ∧
        (L.foldl (packStep packHash size) st).length ≤ size ∧
        (∀ h ∈ (L.foldl (packStep packHash size) st).ids, 0 < lenOf h) ∧
        (∀ p ∈ (L.foldl (packStep packHash size) st).packs,
          p.length = (p.chunks.map lenOf).sum ∧ p.length ≤ size) ∧
        (∀ h : Nat,
          ((((L.foldl (packStep packHash size) st).packs.map Pack.chunks).flatten
            ++ (L.foldl (packStep packHash size) st).ids).count h
          = (processed ++ L.map Chunk.hash).count h)) := by
  intro L
  induction L with
  | nil =>
    intro st processed _ h1 h2 h3 h4 h5
    refine ⟨h1, h2, h3, h4, ?_⟩
    intro h
    rw [List.foldl_nil, h5 h]
    simp
  | cons c L' ih =>
    intro st processed hc h1 h2 h3 h4 h5
    have hch := hc c (List.mem_cons_self _ _)
    have hc' : ∀ x ∈ L',
        0 < x.length ∧ x.length ≤ size ∧ lenOf x.hash = x.length :=
      fun x hx => hc x (List.mem_cons_of_mem _ hx)
    rw [List.foldl_cons]
    have hgoal : ∀ st2 : PackState,
        packStep packHash size st c = st2 →
        st2.length = (st2.ids.map lenOf).sum →
        st2.length ≤ size →
        (∀ h ∈ st2.ids, 0 < lenOf h) →
        (∀ p ∈ st2.packs,
          p.length = (p.chunks.map lenOf).sum ∧ p.length ≤ size) →
        (∀ h : Nat, (((st2.packs.map Pack.chunks).flatten ++ st2.ids).count h
          = (processed ++ [c.hash]).count h)) →
        ((L'.foldl (packStep packHash size) st2).length
            = (((L'.foldl (packStep packHash size) st2).ids.map lenOf)).sum) ∧
          (L'.foldl (packStep packHash size) st2).length ≤ size ∧
          (∀ h ∈ (L'.foldl (packStep packHash size) st2).ids, 0 < lenOf h) ∧
          (∀ p ∈ (L'.foldl (packStep packHash size) st2).packs,
            p.length = (p.chunks.map lenOf).sum ∧ p.length ≤ size) ∧
          (∀ h : Nat,
            ((((L'.foldl (packStep packHash size) st2).packs.map
                Pack.chunks).flatten
              ++ (L'.foldl (packStep packHash size) st2).ids).count h
            = (processed ++ (c :: L').map Chunk.hash).count h)) := by
      intro st2 hst2 g1 g2 g3 g4 g5
      have := ih st2 (processed ++ [c.hash]) hc' g1 g2 g3 g4 g5
      refine ⟨this.1, this.2.1, this.2.2.1, this.2.2.2.1, ?_⟩
      intro h
      rw [this.2.2.2.2 h]
      simp only [List.count_append, List.map_cons, List.count_cons,
        List.count_nil]
      omega
    by_cases hflush : size < st.length + c.length
    · have hstep : packStep packHash size st c
          = ⟨st.packs ++ [⟨packHash st.ids, st.length, st.ids⟩],
              c.length, [c.hash]⟩ := by
        simp [packStep, hflush]
      rw [hstep]
      refine hgoal _ hstep (by simp [hch.2.2]) hch.2.1 ?_ ?_ ?_
      · intro h hh
        have hhc : h = c.hash := by simpa using hh
        rw [hhc, hch.2.2]
        exact hch.1
      · intro p hp
        rcases List.mem_append.mp hp with hp1 | hp1
        · exact h4 p hp1
        · have hpv : p = ⟨packHash st.ids, st.length, st.ids⟩ := by
            simpa using hp1
          rw [hpv]
          exact ⟨h1, h2⟩
      · intro h
        have h5' := h5 h
        simp only [List.count_append] at h5' ⊢
        simp only [List.map_append, List.map_cons, List.map_nil,
          List.flatten_append, List.flatten_cons, List.flatten_nil,
          List.append_nil, List.count_append]
        omega
    · have hstep : packStep packHash size st c
          = ⟨st.packs, st.length + c.length, st.ids ++ [c.hash]⟩ := by
        simp [packStep, hflush]
      rw [hstep]
      refine hgoal _ hstep ?_ (by dsimp only; omega) ?_ h4 ?_
      · simp only [List.map_append, List.sum_append, List.map_cons,
          List.map_nil, List.sum_cons, List.sum_nil, hch.2.2]
        omega
      · intro h hh
        rcases List.mem_append.mp hh with hh1 | hh1
        · exact h3 h hh1
        · have hhc : h = c.hash := by simpa using hh1
          rw [hhc, hch.2.2]
          exact hch.1
      · intro h
        have h5' := h5 h
        simp only [List.count_append] at h5' ⊢
        omega

/-- Summing a list of positive numbers is zero only for the empty list. -/
theorem pack_ids_nonempty {lenOf : Nat → Nat} {ids : List Nat}
    (hpos : ∀ h ∈ ids, 0 < lenOf h) (hzero : (ids.map lenOf).sum = 0) :
    ids = [] := by
  cases ids with
  | nil => rfl
  | cons a l =>
    exfalso
    have := hpos a (List.mem_cons_self _ _)
    simp at hzero
    omega

/-- The packs of `with_pack_size` satisfy the sum and limit invariants,
and their chunk-id multiset is exactly the manifest's chunk-id stream. -/
theorem with_pack_size_inv (packHash : List Nat → Nat) (size : Nat)
    (lenOf : Nat → Nat) (m : Manifest)
    (hc : ∀ c ∈ allChunks m,
      0 < c.length ∧ c.length ≤ size ∧ lenOf c.hash = c.length) :
    (∀ p ∈ with_pack_size packHash size m,
        p.length = (p.chunks.map lenOf).sum ∧ p.length ≤ size) ∧
      ∀ h : Nat,
        ((((with_pack_size packHash size m).map Pack.chunks).flatten).count h
          = ((allChunks m).map Chunk.hash).count h) := by
  have hinv := pack_fold_inv packHash size lenOf (allChunks m) ⟨[], 0, []⟩ []
    hc rfl (by dsimp only; omega) (by simp) (by simp) (by simp)
  rcases hinv with ⟨i1, i2, i3, i4, i5⟩
  unfold with_pack_size
  by_cases hlen : 0 < ((allChunks m).foldl (packStep packHash size) ⟨[], 0, []⟩).length
  · rw [if_pos hlen]
    constructor
    · intro p hp
      rcases List.mem_append.mp hp with hp1 | hp1
      · exact i4 p hp1
      · have hpv : p = ⟨packHash
            ((allChunks m).foldl (packStep packHash size) ⟨[], 0, []⟩).ids,
            ((allChunks m).foldl (packStep packHash size) ⟨[], 0, []⟩).length,
            ((allChunks m).foldl (packStep packHash size) ⟨[], 0, []⟩).ids⟩ := by
          simpa using hp1
        rw [hpv]
        exact ⟨i1, i2⟩
    · intro h
      have := i5 h
      simp only [List.nil_append] at this
      rw [← this]
      simp [List.count_append]
  · rw [if_neg hlen]
    have hz : ((allChunks m).foldl (packStep packHash size) ⟨[], 0, []⟩).length
        = 0 := by omega
    have hids : ((allChunks m).foldl (packStep packHash size) ⟨[], 0, []⟩).ids
        = [] := pack_ids_nonempty i3 (by rw [← i1]; exact hz)
    constructor
    · exact i4
    · intro h
      have := i5 h
      simp only [List.nil_append] at this
      rw [← this, hids]
      simp

/-- A hash occurring exactly once across the concatenated pack contents
lies in exactly one pack. -/
theorem filter_contains_of_count_one :
    ∀ (L : List (List Nat)) (h : Nat), L.flatten.count h = 1 →
      (L.filter (fun l => l.contains h)).length = 1 := by
  intro L
  induction L with
  | nil => intro h hcount; simp at hcount
  | cons l L' ih =>
    intro h hcount
    rw [List.flatten_cons, List.count_append] at hcount
    by_cases hmem : h ∈ l
    · have hl : 0 < l.count h := List.count_pos_iff.mpr hmem
      have hl' : L'.flatten.count h = 0 := by omega
      have hnone : ∀ l' ∈ L', l'.contains h = false := by
        intro l' hl'mem
        by_contra hcontra
        have hmem' : h ∈ l' := by
          cases hb : l'.contains h with
          | false => exact absurd hb hcontra
          | true => exact List.mem_of_elem_eq_true hb
        have hposl : 0 < l'.count h := List.count_pos_iff.mpr hmem'
        have hge : 0 < L'.flatten.count h := by
          have hsub : l'.Sublist L'.flatten := List.sublist_flatten_of_mem hl'mem
          have := hsub.count_le h
          omega
        omega
      rw [List.filter_cons_of_pos (by simpa using hmem)]
      have hrest : L'.filter (fun l => l.contains h) = [] := by
        apply List.filter_eq_nil_iff.mpr
        intro l' hl'mem
        simp only [hnone l' hl'mem]
        simp
      rw [hrest]
      rfl
    · have hl : l.count h = 0 := by
        rw [List.count_eq_zero]
        exact hmem
      rw [List.filter_cons_of_neg (by simpa using hmem)]
      exact ih h (by omega)

/-- Claim C4 counterexample: with pack size 10 and two occurrences of a
20-byte chunk with id 7 the builder emits an empty pack and two packs of
length 20 (exceeding the configured size), and id 7 lies in two packs. -/
theorem c4_counterexample :
    ((with_pack_size (fun _ => 0) 10
        ⟨[⟨0, [⟨7, 0, 20⟩]⟩, ⟨1, [⟨7, 0, 20⟩]⟩]⟩).map Pack.length
        = [0, 20, 20]) ∧
      ¬ (∀ p ∈ with_pack_size (fun _ => 0) 10
          ⟨[⟨0, [⟨7, 0, 20⟩]⟩, ⟨1, [⟨7, 0, 20⟩]⟩]⟩, p.length ≤ 10) ∧
      ((with_pack_size (fun _ => 0) 10
          ⟨[⟨0, [⟨7, 0, 20⟩]⟩, ⟨1, [⟨7, 0, 20⟩]⟩]⟩).filter
          (fun p => p.chunks.contains 7)).length = 2 := by
  decide

/-- Claim C4 (amended): provided every chunk length is positive and at
most the configured pack size, and no chunk id repeats in the manifest
(`lenOf` recording each id's length), every pack of
`RemoteManifest::with_pack_size` has `length` equal to the sum of its
members' recorded lengths and at most the configured size, and every
manifest chunk id lies in exactly one pack. -/
theorem c4_pack_invariants (packHash : List Nat → Nat) (size : Nat)
    (lenOf : Nat → Nat) (m : Manifest)
    (hc : ∀ c ∈ allChunks m,
      0 < c.length ∧ c.length ≤ size ∧ lenOf c.hash = c.length)
    (hnd : ((allChunks m).map Chunk.hash).Nodup) :
    (∀ p ∈ with_pack_size packHash size m,
        p.length = (p.chunks.map lenOf).sum ∧ p.length ≤ size) ∧
      ∀ h ∈ (allChunks m).map Chunk.hash,
        ((with_pack_size packHash size m).filter
          (fun p => p.chunks.contains h)).length = 1 := by
  rcases with_pack_size_inv packHash size lenOf m hc with ⟨hinv, hcount⟩
  refine ⟨hinv, ?_⟩
  intro h hh
  have h1 : ((allChunks m).map Chunk.hash).count h = 1 :=
    List.count_eq_one_of_mem hnd hh
  have hres := filter_contains_of_count_one
    ((with_pack_size packHash size m).map Pack.chunks) h
    (by rw [hcount h, h1])
  rw [List.filter_map, List.length_map] at hres
  simpa [Function.comp] using hres

/-- Claim C4 witness: a two-chunk manifest with distinct ids of lengths
5 and 6 packed with limit 10 yields two packs satisfying the amended
invariants. -/
theorem c4_witness :
    (∀ p ∈ with_pack_size (fun _ => 0) 10 ⟨[⟨0, [⟨1, 0, 5⟩, ⟨2, 5, 6⟩]⟩]⟩,
        p.length = (p.chunks.map
          (fun h => if h = 1 then 5 else 6)).sum ∧ p.length ≤ 10) ∧
      ∀ h ∈ (allChunks ⟨[⟨0, [⟨1, 0, 5⟩, ⟨2, 5, 6⟩]⟩]⟩).map Chunk.hash,
        ((with_pack_size (fun _ => 0) 10 ⟨[⟨0, [⟨1, 0, 5⟩, ⟨2, 5, 6⟩]⟩]⟩).filter
          (fun p => p.chunks.contains h)).length = 1 :=
  c4_pack_invariants (fun _ => 0) 10 (fun h => if h = 1 then 5 else 6)
    ⟨[⟨0, [⟨1, 0, 5⟩, ⟨2, 5, 6⟩]⟩]⟩ (by decide) (by decide)

/-! ### The planner's per-chunk cases against the destination chunk list -/

/-- The `have` map lookup equals the spec-side search for the last
destination chunk with the given hash. -/
theorem lastLookup_haveChunks (H : List Nat → Nat)
    (ck : List Nat → List CdcEntry) (contents : List Nat) (h : Nat) :
    lastLookup (haveChunks H ck contents) h
      = lastEntryWithHash H contents (ck contents) h := by
  unfold lastLookup haveChunks lastEntryWithHash
  rw [List.filter_map, List.getLast?_map]
  rw [Option.map_map]
  have : (Prod.snd ∘ fun e : CdcEntry =>
      (H (sliceL contents e.offset e.length), e)) = id := by
    funext e
    rfl
  rw [this, Option.map_id]
  rfl

/-- Claim C2 counterexample: the destination bytes `[5,5]` chunk into two
unit chunks with the same hash; for the source chunk at the identical
range `(0,1)` the destination does contain a chunk with the same hash at
the identical `(offset, length)`, yet the planner emits `Copy` with the
last record's range `(1,1)`, not `Seek`. -/
theorem c2_counterexample :
    ((haveChunks encodeList unitChunker [5, 5]).contains
        (encodeList [5], CdcEntry.mk 0 1) = true) ∧
      planOps (haveChunks encodeList unitChunker [5, 5])
          [⟨encodeList [5], 0, 1⟩]
        = [Operation.copy ⟨encodeList [5], 1, 1⟩] ∧
      planOps (haveChunks encodeList unitChunker [5, 5])
          [⟨encodeList [5], 0, 1⟩]
        ≠ [Operation.seek (Int.ofNat 1)] := by
  decide

/-- Claim C2 (amended): per source chunk the planner emits, against an
existing destination file: `Seek(length)` iff the last destination chunk
carrying the chunk's hash (the spec's tie-break order) sits at the
identical `(offset, length)`; `Copy` with that last record's
`(offset, length)` iff the hash occurs but that record is elsewhere; and
`Fetch(chunk)` iff no destination chunk carries the hash. When the
destination file does not exist the operation list is exactly the
`Fetch` list. -/
theorem c2_planner_cases (H : List Nat → Nat)
    (ck : List Nat → List CdcEntry) (fs : Fs) (p : Nat) (S : List Chunk) :
    (∀ contents, fs p = some contents → ∀ (i : Nat) (c : Chunk), S[i]? = some c →
      (planOps (haveOf H ck fs p) S)[i]?
        = some (match lastEntryWithHash H contents (ck contents) c.hash with
          | some e =>
            if e.offset = c.offset ∧ e.length = c.length then
              Operation.seek (Int.ofNat e.length)
            else Operation.copy ⟨c.hash, e.offset, e.length⟩
          | none => Operation.fetch ⟨c.hash, c.offset, c.length⟩)) ∧
      (fs p = none → planOps (haveOf H ck fs p) S
        = S.map (fun c => Operation.fetch ⟨c.hash, c.offset, c.length⟩)) := by
  constructor
  · intro contents hfs i c hc
    have hhave : haveOf H ck fs p = haveChunks H ck contents := by
      simp [haveOf, hfs]
    rw [hhave]
    unfold planOps
    rw [List.getElem?_map, hc]
    rw [Option.map_some']
    rw [lastLookup_haveChunks]
  · intro hfs
    have hhave : haveOf H ck fs p = [] := by
      simp [haveOf, hfs]
    rw [hhave]
    unfold planOps
    apply List.map_congr_left
    intro c _
    rfl

/-- Claim C2 witness: the amended case analysis at the concrete
counterexample destination, confirming the `Copy` resolution, plus the
missing-file `Fetch` case. -/
theorem c2_witness :
    ((planOps (haveOf encodeList unitChunker
        (fun q => if q = 0 then some [5, 5] else none) 0)
        [⟨encodeList [5], 0, 1⟩])[0]?
      = some (match lastEntryWithHash encodeList [5, 5]
          (unitChunker [5, 5]) (encodeList [5]) with
        | some e =>
          if e.offset = 0 ∧ e.length = 1 then
            Operation.seek (Int.ofNat e.length)
          else Operation.copy ⟨encodeList [5], e.offset, e.length⟩
        | none => Operation.fetch ⟨encodeList [5], 0, 1⟩)) ∧
      planOps (haveOf encodeList unitChunker
          (fun q => if q = 0 then some [5, 5] else none) 1)
          [⟨encodeList [5], 0, 1⟩]
        = [Operation.fetch ⟨encodeList [5], 0, 1⟩] := by
  constructor
  · exact (c2_planner_cases encodeList unitChunker
      (fun q => if q = 0 then some [5, 5] else none) 0
      [⟨encodeList [5], 0, 1⟩]).1 [5, 5] (by decide) 0
      ⟨encodeList [5], 0, 1⟩ (by decide)
  · exact (c2_planner_cases encodeList unitChunker
      (fun q => if q = 0 then some [5, 5] else none) 1
      [⟨encodeList [5], 0, 1⟩]).2 (by decide)

/-! ### Manifest builder error propagation -/

theorem mapM_chunkFileTask_error (H : List Nat → Nat)
    (ck : List Nat → List CdcEntry)
    (readFile : Nat → Except Error (List Nat)) :
    ∀ (files : List FileInfo),
      (∃ fi ∈ files, ∃ e, readFile fi.directory = Except.error e) →
      ∃ e, files.mapM (chunkFileTask H ck readFile)
        = (Except.error e : Except Error (List FileChunkInfo)) := by
  intro files
  induction files with
  | nil => intro h; simp at h
  | cons fi rest ih =>
    intro h
    rw [List.mapM_cons]
    cases htask : chunkFileTask H ck readFile fi with
    | error e => exact ⟨e, rfl⟩
    | ok b =>
      have hrest : ∃ fj ∈ rest, ∃ e, readFile fj.directory = Except.error e := by
        rcases h with ⟨fj, hj, e, he⟩
        rcases List.mem_cons.mp hj with hj1 | hj1
        · exfalso
          rw [← hj1] at htask
          simp [chunkFileTask, he] at htask
        · exact ⟨fj, hj1, e, he⟩
      rcases ih hrest with ⟨e, he⟩
      refine ⟨e, ?_⟩
      rw [except_bind_ok, he]
      rfl

/-- Claim C8: manifest generation is fail-fast: if reading any file of
the list fails, `Manifest::from_file_list` fails as a whole rather than
returning a manifest that silently omits the failed file. -/
theorem c8_from_file_list_fail_fast (H : List Nat → Nat)
    (ck : List Nat → List CdcEntry)
    (readFile : Nat → Except Error (List Nat)) (files : List FileInfo)
    (hfail : ∃ fi ∈ files, ∃ e, readFile fi.directory = Except.error e) :
    ∃ e, from_file_list H ck readFile files = Except.error e := by
  rcases mapM_chunkFileTask_error H ck readFile files hfail with ⟨e, he⟩
  refine ⟨e, ?_⟩
  unfold from_file_list
  rw [he]
  rfl

/-- Claim C8 witness: a one-file list whose read fails makes
`from_file_list` fail. -/
theorem c8_witness :
    ∃ e, from_file_list encodeList unitChunker
      (fun _ => Except.error Error.accessDenied) [⟨0, 0⟩]
      = Except.error e :=
  c8_from_file_list_fail_fast encodeList unitChunker
    (fun _ => Except.error Error.accessDenied) [⟨0, 0⟩]
    ⟨⟨0, 0⟩, by decide, Error.accessDenied, rfl⟩

/-! ### Idempotence-related results -/

theorem encodeList_injective : Function.Injective encodeList := by
  intro a
  induction a with
  | nil =>
    intro b h
    cases b with
    | nil => rfl
    | cons y ys => simp [encodeList] at h
  | cons x xs ih =>
    intro b h
    cases b with
    | nil => simp [encodeList] at h
    | cons y ys =>
      simp only [encodeList, Nat.add_right_cancel_iff] at h
      rcases Nat.pair_eq_pair.mp h with ⟨hx, hxs⟩
      rw [hx, ih hxs]

/-- Claim C5 counterexample: syncing the duplicate-chunk source `[5, 5]`
into an empty destination succeeds and makes the destination
byte-identical, yet a second call to `plan` over that destination still
returns one file entry (a `Copy` plus a `Seek`), not zero entries. -/
theorem c5_counterexample :
    (sync_from_plan
        (fun h => if h = encodeList [5] then Except.ok [5]
          else Except.error (Error.chunkNotFound h))
        (fun _ => none)
        (plan encodeList unitChunker (fun _ => none)
          ⟨[⟨0, [⟨encodeList [5], 0, 1⟩, ⟨encodeList [5], 1, 1⟩]⟩]⟩)
      = Except.ok (fsUpdate (fun _ => none) 0 [5, 5])) ∧
      (fsUpdate (fun _ => none) 0 [5, 5]) 0 = some [5, 5] ∧
      (plan encodeList unitChunker (fsUpdate (fun _ => none) 0 [5, 5])
        ⟨[⟨0, [⟨encodeList [5], 0, 1⟩,
          ⟨encodeList [5], 1, 1⟩]⟩]⟩).operations.length = 1 := by
  refine ⟨rfl, rfl, ?_⟩
  decide

/-- Claim C5 (amended): over a destination that is already
byte-identical to the source (every manifest file present with its
source bytes and chunked by the chunker that produced the manifest,
paths distinct, ids collision-free, provider sound), a second plan
contains no `Fetch` operation, and a second sync that completes without
error leaves every destination file byte-for-byte unchanged — though the
plan may be non-empty (duplicate chunk hashes re-include a file with
`Copy` operations). -/
theorem c5_second_sync_no_change
    (H : List Nat → Nat) (ck : List Nat → List CdcEntry)
    (provider : Nat → Except Error (List Nat)) (fs : Fs) (m : Manifest)
    (srcMap : Nat → List Nat)
    (Hinj : Function.Injective H)
    (hprov : ∀ h data, provider h = Except.ok data → H data = h)
    (hcov : ∀ fci ∈ m.files, chunksCoverB H (srcMap fci.path) fci.chunks = true)
    (hckm : ∀ fci ∈ m.files, ck (srcMap fci.path)
      = fci.chunks.map (fun c => CdcEntry.mk c.offset c.length))
    (hfs : ∀ fci ∈ m.files, fs fci.path = some (srcMap fci.path))
    (hnd : (m.files.map FileChunkInfo.path).Nodup) :
    (∀ p ops, (p, ops) ∈ (plan H ck fs m).operations →
        ∀ c, Operation.fetch c ∉ ops) ∧
      ∀ fs1, sync_from_plan provider fs (plan H ck fs m) = Except.ok fs1 →
        ∀ q, fs1 q = fs q := by
  have hmemchar : ∀ p ops, (p, ops) ∈ (plan H ck fs m).operations →
      ∃ fci ∈ m.files, p = fci.path ∧
        ops = planOps (haveChunks H ck (srcMap fci.path)) fci.chunks := by
    intro p ops hmem
    have hmem' : (p, ops) ∈
        ((m.files.foldl (planStep H ck fs) (⟨[], 0⟩, 0)).1).operations := hmem
    rcases plan_foldl_mem H ck fs m.files (⟨[], 0⟩, 0) p ops hmem' with
      habs | ⟨fci, hfci, hp, hops, _⟩
    · simp at habs
    · refine ⟨fci, hfci, hp, ?_⟩
      rw [hops]
      have hhx : haveOf H ck fs fci.path
          = haveChunks H ck (srcMap fci.path) := by
        simp [haveOf, hfs fci hfci]
      rw [hhx]
  constructor
  · intro p ops hmem c hc
    rcases hmemchar p ops hmem with ⟨fci, hfci, _, hops⟩
    rw [hops] at hc
    exact planOps_self_no_fetch H ck (srcMap fci.path) fci.chunks
      (hckm fci hfci) (chunksCoverB_iff.mp (hcov fci hfci)).2.2 c hc
  · intro fs1 hok q
    have hfold : List.foldlM (syncFileStep provider) fs
        (plan H ck fs m).operations = Except.ok fs1 := hok
    by_cases hq : q ∈ (plan H ck fs m).operations.map Prod.fst
    · rcases List.mem_map.mp hq with ⟨pr, hpr, hq1⟩
      rcases pr with ⟨a, b⟩
      rcases hq1
      have hnodup : ((plan H ck fs m).operations.map Prod.fst).Nodup := by
        have hsub := plan_paths_sublist H ck fs m.files (⟨[], 0⟩, 0)
        simp only [List.nil_append] at hsub
        exact List.Sublist.nodup (by simpa using hsub) hnd
      rcases sync_fold_result provider (plan H ck fs m).operations fs fs1
        a b hnodup hpr hfold with ⟨out, hsf, hval⟩
      rcases hmemchar a b hpr with ⟨fci, hfci, hp, hops⟩
      have horig : (fs a).getD [] = srcMap fci.path := by
        rw [hp, hfs fci hfci]
        rfl
      rw [horig, hops] at hsf
      have hout : out = srcMap fci.path :=
        syncFile_planOps_src H provider (srcMap fci.path) (srcMap fci.path)
          (haveChunks H ck (srcMap fci.path)) Hinj hprov
          (haveChunks_sound H ck (srcMap fci.path)) fci.chunks
          (hcov fci hfci) out hsf
      rw [hval, hout, hp, hfs fci hfci]
    · exact sync_fold_frame provider (plan H ck fs m).operations fs fs1
        hfold q hq

/-- Claim C5 witness: the amended statement at the concrete
duplicate-chunk instance: the second plan has no `Fetch` and a second
sync leaves the destination untouched. -/
theorem c5_witness :
    (∀ p ops, (p, ops) ∈ (plan encodeList unitChunker
        (fun q => if q = 0 then some [5, 5] else none)
        ⟨[⟨0, [⟨encodeList [5], 0, 1⟩,
          ⟨encodeList [5], 1, 1⟩]⟩]⟩).operations →
        ∀ c, Operation.fetch c ∉ ops) ∧
      ∀ fs1, sync_from_plan
          (fun h => if h = encodeList [5] then Except.ok [5]
            else Except.error (Error.chunkNotFound h))
          (fun q => if q = 0 then some [5, 5] else none)
          (plan encodeList unitChunker
            (fun q => if q = 0 then some [5, 5] else none)
            ⟨[⟨0, [⟨encodeList [5], 0, 1⟩,
              ⟨encodeList [5], 1, 1⟩]⟩]⟩) = Except.ok fs1 →
        ∀ q, fs1 q = (fun q => if q = 0 then some [5, 5] else none) q := by
  refine c5_second_sync_no_change encodeList unitChunker
    (fun h => if h = encodeList [5] then Except.ok [5]
      else Except.error (Error.chunkNotFound h))
    (fun q => if q = 0 then some [5, 5] else none)
    ⟨[⟨0, [⟨encodeList [5], 0, 1⟩, ⟨encodeList [5], 1, 1⟩]⟩]⟩
    (fun _ => [5, 5]) encodeList_injective ?_ (by decide) (by decide)
    (by decide) (by decide)
  intro h data hd
  by_cases hh : h = encodeList [5]
  · rw [hh] at hd ⊢
    simp at hd
    rw [hd]
  · simp [hh] at hd

/-- Claim C1 (code bug): the destination `[1, 2, 9]` extends the 2-byte
source `[1, 2]` and chunks into the source's records plus one extra; the
planner emits all-Seek for the file, omits it from the plan, and the
sync completes without error leaving the destination 3 bytes long — not
byte-identical and not truncated to the source length. -/
theorem c1_skip_rule_keeps_longer_destination :
    (chunksCoverB encodeList [1, 2]
        [⟨encodeList [1], 0, 1⟩, ⟨encodeList [2], 1, 1⟩] = true) ∧
      (entriesCoverB [1, 2, 9] (unitChunker [1, 2, 9]) = true) ∧
      ((plan encodeList unitChunker
          (fun p => if p = 0 then some [1, 2, 9] else none)
          ⟨[⟨0, [⟨encodeList [1], 0, 1⟩,
            ⟨encodeList [2], 1, 1⟩]⟩]⟩).operations = []) ∧
      Except.map (fun f => f 0)
        (sync_from_plan (fun h => Except.error (Error.chunkNotFound h))
          (fun p => if p = 0 then some [1, 2, 9] else none)
          (plan encodeList unitChunker
            (fun p => if p = 0 then some [1, 2, 9] else none)
            ⟨[⟨0, [⟨encodeList [1], 0, 1⟩, ⟨encodeList [2], 1, 1⟩]⟩]⟩))
        = Except.ok (some [1, 2, 9]) ∧
      [1, 2, 9] ≠ [1, 2] := by
  exact ⟨by decide, by decide, by decide, rfl, by decide⟩

end Binsync
